import Mathlib

/-!
Verification of the CMI borehole-imaging pipeline.

This file gives a shallow embedding, in Lean 4, of the numeric kernels of the
repository's processing scripts, and proves (or refutes) the frozen claims
about them:

* signal conditioning (speed correction, pad normalization) from
  process_cmi_buttons.py (STEP 2, STEP 3) and cmi_no_interpolation.py;
* sentinel scrubbing from create_image_log.py / create_raw_image_log.py;
* within-pad-only azimuthal reconstruction from cmi_no_interpolation.py;
* full-circle azimuthal interpolation from process_cmi_buttons.py (STEP 5);
* intensity normalization from process_cmi_buttons.py (STEP 7);
* coal mask construction and seam extraction from detect_coal_seams.py;
* fracture-region azimuth centers from detect_features.py;
* Otsu thresholding from optimize_conductivity_cutoff.py.

Missing values (numpy NaN) are modelled as `none : Option ℚ`; all machine
floats are modelled as exact rationals.
-/

/-! ### Angle arithmetic

Python's `x % 360` on floats (and numpy's broadcast version) returns the
representative of `x` modulo 360 lying in `[0, 360)`.  We model it on `ℚ`. -/

/-- Rational counterpart of the Python/numpy expression `x % 360`. -/
def qmod360 (x : ℚ) : ℚ := x - 360 * ⌊x / 360⌋

theorem qmod360_nonneg (x : ℚ) : 0 ≤ qmod360 x := by
  have h := Int.floor_le (x / 360)
  have h360 : (0:ℚ) < 360 := by norm_num
  unfold qmod360
  nlinarith [h, h360]

theorem qmod360_lt (x : ℚ) : qmod360 x < 360 := by
  have h := Int.lt_floor_add_one (x / 360)
  have h360 : (0:ℚ) < 360 := by norm_num
  unfold qmod360
  nlinarith [h, h360]

/-- The value of `qmod360 x` differs from `x` by an integer multiple of 360. -/
theorem qmod360_sub_exists (x : ℚ) : ∃ k : ℤ, qmod360 x = x - 360 * k :=
  ⟨⌊x / 360⌋, rfl⟩

theorem qmod360_add_int_mul (x : ℚ) (k : ℤ) :
    qmod360 (x + 360 * k) = qmod360 x := by
  unfold qmod360
  have : (x + 360 * k) / 360 = x / 360 + k := by
    field_simp
    ring
  rw [this, Int.floor_add_int]
  push_cast
  ring

theorem qmod360_le_self {x : ℚ} (hx : 0 ≤ x) : qmod360 x ≤ x := by
  have h : (0:ℤ) ≤ ⌊x / 360⌋ := Int.floor_nonneg.mpr (by positivity)
  unfold qmod360
  have : (0:ℚ) ≤ 360 * ⌊x / 360⌋ := by
    have : (0:ℚ) ≤ (⌊x / 360⌋ : ℚ) := by exact_mod_cast h
    nlinarith
  linarith

theorem qmod360_eq_self {x : ℚ} (h0 : 0 ≤ x) (h1 : x < 360) : qmod360 x = x := by
  have : ⌊x / 360⌋ = 0 := by
    rw [Int.floor_eq_zero_iff]
    constructor
    · positivity
    · rw [div_lt_one (by norm_num : (0:ℚ) < 360)]; exact h1
  unfold qmod360
  rw [this]
  push_cast
  ring

theorem qmod360_eq_add {x : ℚ} (h0 : -360 ≤ x) (h1 : x < 0) :
    qmod360 x = x + 360 := by
  have hx : qmod360 (x + 360 * (1:ℤ)) = qmod360 x := qmod360_add_int_mul x 1
  have harg : x + 360 * ((1:ℤ):ℚ) = x + 360 := by push_cast; ring
  rw [harg] at hx
  rw [← hx]
  exact qmod360_eq_self (by linarith) (by linarith)

/-- Circular distance between two angles, in degrees, in `[0, 180]`. -/
def circDist (a b : ℚ) : ℚ := min (qmod360 (a - b)) (qmod360 (b - a))

theorem circDist_comm (a b : ℚ) : circDist a b = circDist b a := by
  unfold circDist; exact min_comm _ _

/-- The circular distance is bounded by the absolute difference of the angles
shifted by any integer multiple of a full turn. -/
theorem circDist_le_shift (a b : ℚ) (k : ℤ) :
    circDist a b ≤ |a - b - 360 * k| := by
  have h1 : qmod360 (a - b) = qmod360 (a - b - 360 * k) := by
    calc qmod360 (a - b) = qmod360 (a - b - 360 * (k:ℚ) + 360 * (k:ℤ)) := by
          congr 1; ring
      _ = qmod360 (a - b - 360 * k) := qmod360_add_int_mul _ k
  have h2 : qmod360 (b - a) = qmod360 (-(a - b - 360 * k)) := by
    calc qmod360 (b - a) = qmod360 (-(a - b - 360 * (k:ℚ)) + 360 * ((-k : ℤ):ℚ)) := by
          congr 1; push_cast; ring
      _ = qmod360 (-(a - b - 360 * k)) := qmod360_add_int_mul _ (-k)
  rcases le_or_lt 0 (a - b - 360 * k) with hd | hd
  · calc circDist a b ≤ qmod360 (a - b) := min_le_left _ _
      _ = qmod360 (a - b - 360 * k) := h1
      _ ≤ a - b - 360 * k := qmod360_le_self hd
      _ = |a - b - 360 * k| := (abs_of_nonneg hd).symm
  · calc circDist a b ≤ qmod360 (b - a) := min_le_right _ _
      _ = qmod360 (-(a - b - 360 * k)) := h2
      _ ≤ -(a - b - 360 * k) := qmod360_le_self (by linarith)
      _ = |a - b - 360 * k| := (abs_of_neg hd).symm

/-- Angles whose `qmod360` representatives agree and which lie within a full
turn of each other are equal. -/
theorem qmod360_inj {x y : ℚ} (hxy : |x - y| < 360) (h : qmod360 x = qmod360 y) :
    x = y := by
  obtain ⟨k, hk⟩ := qmod360_sub_exists x
  obtain ⟨m, hm⟩ := qmod360_sub_exists y
  rw [hk, hm] at h
  have hdiff : x - y = 360 * ((k : ℚ) - m) := by linarith
  have habs : |(360:ℚ) * ((k:ℚ) - m)| < 360 := by rw [← hdiff]; exact hxy
  have hq : |(k:ℚ) - m| < 1 := by
    rw [abs_mul, abs_of_pos (by norm_num : (0:ℚ) < 360)] at habs
    linarith
  have hkm : k = m := by
    have h3 : |((k - m : ℤ) : ℚ)| < 1 := by push_cast; exact hq
    have h4 : |k - m| < 1 := by exact_mod_cast h3
    have h5 := abs_lt.mp h4
    omega
  rw [hkm] at hdiff
  simp at hdiff
  linarith

/-! ### Missing-value arithmetic

numpy arithmetic propagates NaN; division by zero yields a non-finite value.
Both NaN and non-finite results are modelled as `none`. -/

/-- Elementwise division with NaN propagation (`none` also on a zero
denominator, where numpy produces a non-finite inf/NaN value). -/
def odiv : Option ℚ → Option ℚ → Option ℚ
  | some a, some b => if b = 0 then none else some (a / b)
  | _, _ => none

/-- Elementwise multiplication with NaN propagation. -/
def omul : Option ℚ → Option ℚ → Option ℚ
  | some a, some b => some (a * b)
  | _, _ => none

/-! ### Sorting, median, percentile (numpy nanmedian / nanpercentile) -/

/-- Insert into a sorted list of rationals. -/
def insertQ (x : ℚ) : List ℚ → List ℚ
  | [] => [x]
  | y :: rest => if x ≤ y then x :: y :: rest else y :: insertQ x rest

/-- Insertion sort for rationals (models numpy sorting; ties are irrelevant
for the statistics computed here). -/
def sortQ : List ℚ → List ℚ
  | [] => []
  | x :: rest => insertQ x (sortQ rest)

/-- Insert a point into a list sorted by first component. -/
def insertByFst (p : ℚ × ℚ) : List (ℚ × ℚ) → List (ℚ × ℚ)
  | [] => [p]
  | q :: rest => if p.1 ≤ q.1 then p :: q :: rest else q :: insertByFst p rest

/-- Sort points by first component (models np.argsort-based reordering;
the keys used in this development are pairwise distinct). -/
def sortByFst : List (ℚ × ℚ) → List (ℚ × ℚ)
  | [] => []
  | p :: rest => insertByFst p (sortByFst rest)

/-- Median of a list of valid values (np.median on a non-empty array;
`none` on an empty one, where numpy returns NaN). -/
def medianQ (l : List ℚ) : Option ℚ :=
  if (sortQ l).length = 0 then none
  else if (sortQ l).length % 2 = 1 then (sortQ l).get? ((sortQ l).length / 2)
  else
    match (sortQ l).get? ((sortQ l).length / 2 - 1),
        (sortQ l).get? ((sortQ l).length / 2) with
    | some a, some b => some ((a + b) / 2)
    | _, _ => none

/-- nanmedian: median of the non-missing entries. -/
def nanmedian (l : List (Option ℚ)) : Option ℚ := medianQ (l.filterMap id)

/-- q-th percentile with linear interpolation (np.percentile default method);
`none` on an empty list. -/
def percentileQ (q : ℚ) (l : List ℚ) : Option ℚ :=
  let s := sortQ l
  let n := s.length
  if n = 0 then none
  else
    let h := q * ((n : ℚ) - 1) / 100
    let i := (⌊h⌋).toNat
    let a := s.getD i 0
    if h = (i : ℚ) then some a
    else some (a + (h - (i : ℚ)) * (s.getD (i + 1) 0 - a))

/-! ### Pad geometry

Shared by process_cmi_buttons.py and cmi_no_interpolation.py: 8 pads at 45°
spacing (the pad_offsets dict) and a 20° button span per pad. -/

/-- Azimuthal offset of each pad from the pad-1 reference (pad_offsets dict;
pads are numbered 1..8, other keys are never looked up). -/
def pad_offsets : ℕ → ℚ
  | 1 => 0 | 2 => 45 | 3 => 90 | 4 => 135
  | 5 => 180 | 6 => 225 | 7 => 270 | 8 => 315
  | _ => 0

/-- Angular span of the buttons on one pad, degrees. -/
def button_span : ℚ := 20

/-- Within-pad button offset of process_cmi_buttons.py line 178:
`-button_span/2 + (btn / (num_buttons-1)) * button_span`. -/
def btn_offset_fwd (n b : ℕ) : ℚ :=
  if 1 < n then -button_span / 2 + ((b : ℚ) / ((n : ℚ) - 1)) * button_span else 0

/-- Within-pad button offset of cmi_no_interpolation.py line 144 (the
comment there reads REVERSED): `button_span/2 - (btn / (num_buttons-1)) *
button_span`. -/
def btn_offset_rev (n b : ℕ) : ℚ :=
  if 1 < n then button_span / 2 - ((b : ℚ) / ((n : ℚ) - 1)) * button_span else 0

/-- Absolute button azimuth as computed by process_cmi_buttons.py line 184. -/
def button_azimuth_fwd (p1az : ℚ) (pad n b : ℕ) : ℚ :=
  qmod360 (p1az + pad_offsets pad + btn_offset_fwd n b)

/-- Absolute button azimuth as computed by cmi_no_interpolation.py line 149. -/
def button_azimuth_rev (p1az : ℚ) (pad n b : ℕ) : ℚ :=
  qmod360 (p1az + pad_offsets pad + btn_offset_rev n b)

theorem btn_offset_rev_bounds (n b : ℕ) (hb : b < n) :
    -10 ≤ btn_offset_rev n b ∧ btn_offset_rev n b ≤ 10 := by
  unfold btn_offset_rev button_span
  by_cases hn : 1 < n
  · rw [if_pos hn]
    have hnpos : (0:ℚ) < (n : ℚ) - 1 := by
      have : (1:ℚ) < (n:ℚ) := by exact_mod_cast hn
      linarith
    have hb1 : (b : ℚ) ≤ (n : ℚ) - 1 := by
      have : (b:ℚ) < (n:ℚ) := by exact_mod_cast hb
      have hbn : b + 1 ≤ n := hb
      have : ((b:ℚ) + 1) ≤ (n:ℚ) := by exact_mod_cast hbn
      linarith
    have h0 : 0 ≤ (b : ℚ) / ((n : ℚ) - 1) := by positivity
    have h1 : (b : ℚ) / ((n : ℚ) - 1) ≤ 1 := by
      rw [div_le_one hnpos]; exact hb1
    constructor <;> nlinarith
  · rw [if_neg hn]; norm_num

theorem btn_offset_fwd_eq_neg_rev (n b : ℕ) :
    btn_offset_fwd n b = -btn_offset_rev n b := by
  unfold btn_offset_fwd btn_offset_rev
  by_cases hn : 1 < n
  · rw [if_pos hn, if_pos hn]; ring
  · rw [if_neg hn, if_neg hn]; ring

/-- C9: the within-pad offset of process_cmi_buttons.py is the exact negation
of the one in cmi_no_interpolation.py; consequently the two scripts'
button-to-azimuth mappings agree exactly when the button is the pad-center
button (index b with 2b+1 = n) and for no other button, and reversing the
button index order turns one mapping into the other. -/
theorem C9_offset_reversal (n b : ℕ) (hn : 1 < n) (hb : b < n)
    (p1az : ℚ) (pad : ℕ) :
    btn_offset_fwd n b = -btn_offset_rev n b ∧
    (button_azimuth_fwd p1az pad n b = button_azimuth_rev p1az pad n b ↔
      2 * b + 1 = n) ∧
    button_azimuth_fwd p1az pad n (n - 1 - b) = button_azimuth_rev p1az pad n b := by
  have hneg := btn_offset_fwd_eq_neg_rev n b
  have hnpos : (0:ℚ) < (n : ℚ) - 1 := by
    have : (1:ℚ) < (n:ℚ) := by exact_mod_cast hn
    linarith
  have hne : ((n : ℚ) - 1) ≠ 0 := ne_of_gt hnpos
  refine ⟨hneg, ?_, ?_⟩
  · unfold button_azimuth_fwd button_azimuth_rev
    constructor
    · intro h
      have hrb := btn_offset_rev_bounds n b hb
      have hfb : -10 ≤ btn_offset_fwd n b ∧ btn_offset_fwd n b ≤ 10 := by
        rw [hneg]; constructor <;> linarith [hrb.1, hrb.2]
      have heq : p1az + pad_offsets pad + btn_offset_fwd n b =
          p1az + pad_offsets pad + btn_offset_rev n b := by
        apply qmod360_inj _ h
        have : |btn_offset_fwd n b - btn_offset_rev n b| ≤ 20 := by
          rw [abs_le]; constructor <;> nlinarith [hrb.1, hrb.2, hfb.1, hfb.2]
        calc |p1az + pad_offsets pad + btn_offset_fwd n b -
              (p1az + pad_offsets pad + btn_offset_rev n b)| =
              |btn_offset_fwd n b - btn_offset_rev n b| := by ring_nf
          _ ≤ 20 := this
          _ < 360 := by norm_num
      have hoff : btn_offset_fwd n b = btn_offset_rev n b := by linarith
      have hzero : btn_offset_fwd n b = 0 := by
        rw [hneg] at hoff; linarith
      unfold btn_offset_fwd button_span at hzero
      rw [if_pos hn] at hzero
      have : 2 * (b : ℚ) = (n : ℚ) - 1 := by
        field_simp at hzero
        linarith
      have hcast : 2 * (b:ℚ) + 1 = (n:ℚ) := by linarith
      exact_mod_cast hcast
    · intro h
      congr 1
      have hq : 2 * (b:ℚ) + 1 = (n:ℚ) := by exact_mod_cast h
      unfold btn_offset_fwd btn_offset_rev button_span
      rw [if_pos hn, if_pos hn]
      field_simp
      ring_nf
      nlinarith [hq]
  · unfold button_azimuth_fwd button_azimuth_rev
    congr 1
    have hb1 : b ≤ n - 1 := by omega
    have h1n : 1 ≤ n := by omega
    have e1 : ((n - 1 - b : ℕ) : ℚ) = (n : ℚ) - 1 - (b : ℚ) := by
      rw [Nat.cast_sub hb1, Nat.cast_sub h1n]
      norm_num
    unfold btn_offset_fwd btn_offset_rev button_span
    rw [if_pos hn, if_pos hn, e1]
    field_simp
    ring

/-- Witness for C9 at a concrete input: a 3-button pad, whose middle button
(index 1) is the unique agreement point. -/
theorem C9_offset_reversal_witness :
    btn_offset_fwd 3 1 = -btn_offset_rev 3 1 ∧
    (button_azimuth_fwd 0 1 3 1 = button_azimuth_rev 0 1 3 1 ↔ 2 * 1 + 1 = 3) ∧
    button_azimuth_fwd 0 1 3 (3 - 1 - 1) = button_azimuth_rev 0 1 3 1 :=
  C9_offset_reversal 3 1 (by norm_num) (by norm_num) 0 1

/-! ### Within-pad-only reconstruction (cmi_no_interpolation.py lines 129-190)

The script builds a (depth × 360) image initialised to NaN and, channel by
channel, interpolates each pad's buttons across that pad's own ±10° window
only.  Azimuth bins are modelled as integers (only 0..359 are ever written),
rows as functions `ℤ → Option ℚ`. -/

/-- np.interp(x, xp, fp, left=np.nan, right=np.nan) over points sorted by
ascending x-coordinate (cmi_no_interpolation.py line 183). -/
def np_interp_nan (x : ℚ) : List (ℚ × ℚ) → Option ℚ
  | [] => none
  | [p] => if x = p.1 then some p.2 else none
  | p :: q :: rest =>
    if x < p.1 then none
    else if x ≤ q.1 then some (p.2 + (q.2 - p.2) * (x - p.1) / (q.1 - p.1))
    else np_interp_nan x (q :: rest)

/-- The (azimuth, value) samples of one channel at one depth, in button order,
keeping only non-missing buttons (the collection loop, lines 140-154). -/
def valid_buttons_aux (p1az : ℚ) (pad n : ℕ) : ℕ → List (Option ℚ) → List (ℚ × ℚ)
  | _, [] => []
  | b, none :: rest => valid_buttons_aux p1az pad n (b + 1) rest
  | b, some v :: rest =>
    (button_azimuth_rev p1az pad n b, v) :: valid_buttons_aux p1az pad n (b + 1) rest

def valid_buttons (p1az : ℚ) (pad : ℕ) (vals : List (Option ℚ)) : List (ℚ × ℚ) :=
  valid_buttons_aux p1az pad vals.length 0 vals

/-- Integer interval [a, b] as a list (np.arange(a, b+1)). -/
def int_range (a b : ℤ) : List ℤ :=
  (List.range (b + 1 - a).toNat).map (fun i : ℕ => a + (i : ℤ))

/-- Overwrite one azimuth bin of a row. -/
def writeBin (row : ℤ → Option ℚ) (i : ℤ) (v : ℚ) : ℤ → Option ℚ :=
  fun j => if j = i then some v else row j

/-- The pad's azimuth-bin window (lines 164-177): integer bins spanning the
±10° window around the pad center, split in two when it crosses 0°/360°. -/
def pad_az_bins (center : ℚ) : List ℤ :=
  let pad_start := qmod360 (center - button_span / 2)
  let pad_end := qmod360 (center + button_span / 2)
  if pad_start < pad_end then int_range ⌊pad_start⌋ ⌊pad_end⌋
  else int_range ⌊pad_start⌋ 359 ++ int_range 0 ⌊pad_end⌋

/-- Body of the bin loop (lines 180-186): reduce the bin mod 360, interpolate
within the sorted button samples, write the bin only on a non-NaN result. -/
def interp_write (sorted : List (ℚ × ℚ)) (r : ℤ → Option ℚ) (az_bin : ℤ) :
    ℤ → Option ℚ :=
  match np_interp_nan ((az_bin % 360 : ℤ) : ℚ) sorted with
  | some v => writeBin r (az_bin % 360) v
  | none => r

/-- Process one channel at one depth (the body of the per-depth loop,
lines 135-190): with ≥2 valid buttons, interpolate across the pad's own
window only; with exactly one, place it in its single bin; with none,
leave the row unchanged. -/
def process_pad_row (p1az : ℚ) (pad : ℕ) (vals : List (Option ℚ))
    (row : ℤ → Option ℚ) : ℤ → Option ℚ :=
  match valid_buttons p1az pad vals with
  | [] => row
  | [p] => writeBin row (⌊p.1⌋ % 360) p.2
  | p :: q :: rest =>
    (pad_az_bins (qmod360 (p1az + pad_offsets pad))).foldl
      (interp_write (sortByFst (p :: q :: rest))) row

/-- One button channel: pad number and per-depth button readings. -/
structure PadChannel where
  pad : ℕ
  vals : ℕ → List (Option ℚ)

/-- The within-pad-only unwrapped image (lines 121-190): start from all-NaN
and process every channel; rows at distinct depths never interact. -/
def within_pad_image (p1az : ℕ → ℚ) (channels : List PadChannel) :
    ℕ → ℤ → Option ℚ :=
  channels.foldl
    (fun img ch => fun d => process_pad_row (p1az d) ch.pad (ch.vals d) (img d))
    (fun _ _ => none)

theorem writeBin_cases {row : ℤ → Option ℚ} {i j : ℤ} {v w : ℚ}
    (h : writeBin row i v j = some w) : (j = i ∧ w = v) ∨ row j = some w := by
  unfold writeBin at h
  by_cases hj : j = i
  · rw [if_pos hj] at h
    exact Or.inl ⟨hj, (Option.some_injective ℚ h).symm⟩
  · rw [if_neg hj] at h
    exact Or.inr h

theorem mem_int_range {a b x : ℤ} (hx : x ∈ int_range a b) : a ≤ x ∧ x ≤ b := by
  unfold int_range at hx
  simp only [List.mem_map, List.mem_range] at hx
  obtain ⟨i, hi, hxe⟩ := hx
  constructor <;> omega

theorem interp_foldl_frame (sorted : List (ℚ × ℚ)) (bins : List ℤ) :
    ∀ (row : ℤ → Option ℚ) (j : ℤ) (w : ℚ),
      bins.foldl (interp_write sorted) row j = some w →
      row j = some w ∨ ∃ x ∈ bins, j = x % 360 := by
  induction bins with
  | nil => intro row j w h; exact Or.inl h
  | cons x rest ih =>
    intro row j w h
    rw [List.foldl_cons] at h
    rcases ih _ j w h with h' | ⟨y, hy, hj⟩
    · unfold interp_write at h'
      cases hi : np_interp_nan ((x % 360 : ℤ) : ℚ) sorted with
      | none => rw [hi] at h'; exact Or.inl h'
      | some v =>
        rw [hi] at h'
        rcases writeBin_cases h' with ⟨hj, _⟩ | hrow
        · exact Or.inr ⟨x, List.mem_cons_self x rest, hj⟩
        · exact Or.inl hrow
    · exact Or.inr ⟨y, List.mem_cons_of_mem x hy, hj⟩

theorem mem_valid_buttons_aux {p1az : ℚ} {pad n : ℕ} :
    ∀ (l : List (Option ℚ)) (b : ℕ) (q : ℚ × ℚ),
      q ∈ valid_buttons_aux p1az pad n b l →
      ∃ i, b ≤ i ∧ i < b + l.length ∧ q.1 = button_azimuth_rev p1az pad n i := by
  intro l
  induction l with
  | nil => intro b q h; simp [valid_buttons_aux] at h
  | cons v rest ih =>
    intro b q h
    cases v with
    | none =>
      obtain ⟨i, h1, h2, h3⟩ := ih (b + 1) q h
      exact ⟨i, by omega, by simp; omega, h3⟩
    | some x =>
      rw [valid_buttons_aux] at h
      rcases List.mem_cons.mp h with rfl | h'
      · exact ⟨b, le_refl b, by simp, rfl⟩
      · obtain ⟨i, h1, h2, h3⟩ := ih (b + 1) q h'
        exact ⟨i, by omega, by simp; omega, h3⟩

theorem mem_valid_buttons {p1az : ℚ} {pad : ℕ} {vals : List (Option ℚ)}
    {q : ℚ × ℚ} (h : q ∈ valid_buttons p1az pad vals) :
    ∃ i, i < vals.length ∧ q.1 = button_azimuth_rev p1az pad vals.length i := by
  obtain ⟨i, _, h2, h3⟩ := mem_valid_buttons_aux vals 0 q h
  exact ⟨i, by omega, h3⟩

/-- The bin written for a single placed button is within 11° of the pad
center. -/
theorem circDist_floor_azimuth (p po off : ℚ) (hoff : |off| ≤ 10) :
    circDist ((⌊qmod360 (p + po + off)⌋ : ℚ)) (qmod360 (p + po)) < 11 := by
  obtain ⟨a, ha⟩ := qmod360_sub_exists (p + po + off)
  obtain ⟨c, hc⟩ := qmod360_sub_exists (p + po)
  have hfr0 : ((⌊qmod360 (p + po + off)⌋ : ℤ) : ℚ) ≤ qmod360 (p + po + off) :=
    Int.floor_le _
  have hfr1 : qmod360 (p + po + off) < (⌊qmod360 (p + po + off)⌋ : ℚ) + 1 :=
    Int.lt_floor_add_one _
  have hb := abs_le.mp hoff
  calc circDist ((⌊qmod360 (p + po + off)⌋ : ℚ)) (qmod360 (p + po))
      ≤ |(⌊qmod360 (p + po + off)⌋ : ℚ) - qmod360 (p + po) - 360 * ((c - a : ℤ) : ℚ)| :=
        circDist_le_shift _ _ _
    _ < 11 := by
        rw [abs_lt]
        constructor
        · push_cast
          nlinarith [hb.1, hb.2, hfr0, hfr1, ha, hc]
        · push_cast
          nlinarith [hb.1, hb.2, hfr0, hfr1, ha, hc]

/-- Every bin of the pad's window is within 11° (circularly) of the pad
center. -/
theorem bins_mem_circ {c : ℚ} {x : ℤ} (hx : x ∈ pad_az_bins c) :
    0 ≤ x ∧ x ≤ 359 ∧ circDist ((x : ℤ) : ℚ) c < 11 := by
  unfold pad_az_bins button_span at hx
  obtain ⟨k1, hs⟩ := qmod360_sub_exists (c - 20 / 2)
  obtain ⟨k2, he⟩ := qmod360_sub_exists (c + 20 / 2)
  have hs0 := qmod360_nonneg (c - 20 / 2)
  have hs1 := qmod360_lt (c - 20 / 2)
  have he0 := qmod360_nonneg (c + 20 / 2)
  have he1 := qmod360_lt (c + 20 / 2)
  by_cases hlt : qmod360 (c - 20 / 2) < qmod360 (c + 20 / 2)
  · rw [if_pos hlt] at hx
    obtain ⟨hxl, hxr⟩ := mem_int_range hx
    have hfls : (0 : ℤ) ≤ ⌊qmod360 (c - 20 / 2)⌋ := Int.le_floor.mpr (by exact_mod_cast hs0)
    have hfle : ⌊qmod360 (c + 20 / 2)⌋ < 360 := Int.floor_lt.mpr (by exact_mod_cast he1)
    have hk : k2 = k1 := by
      have hgap : qmod360 (c + 20 / 2) - qmod360 (c - 20 / 2) =
          20 - 360 * ((k2 : ℚ) - k1) := by rw [hs, he]; ring
      have hub : ((k2 - k1 : ℤ) : ℚ) < 1 := by push_cast; nlinarith
      have hlb : (-1 : ℚ) < ((k2 - k1 : ℤ) : ℚ) := by push_cast; nlinarith
      have h1 : (k2 - k1 : ℤ) < 1 := by exact_mod_cast hub
      have h2 : (-1 : ℤ) < (k2 - k1 : ℤ) := by exact_mod_cast hlb
      omega
    refine ⟨by omega, by omega, ?_⟩
    have hfloor_s : qmod360 (c - 20 / 2) - 1 < (⌊qmod360 (c - 20 / 2)⌋ : ℚ) :=
      Int.sub_one_lt_floor _
    have hfloor_e : ((⌊qmod360 (c + 20 / 2)⌋ : ℤ) : ℚ) ≤ qmod360 (c + 20 / 2) :=
      Int.floor_le _
    have hxlq : ((⌊qmod360 (c - 20 / 2)⌋ : ℤ) : ℚ) ≤ (x : ℚ) := by exact_mod_cast hxl
    have hxrq : (x : ℚ) ≤ ((⌊qmod360 (c + 20 / 2)⌋ : ℤ) : ℚ) := by exact_mod_cast hxr
    calc circDist ((x : ℤ) : ℚ) c ≤ |(x : ℚ) - c - 360 * ((-k1 : ℤ) : ℚ)| :=
          circDist_le_shift _ _ _
      _ < 11 := by
          rw [abs_lt]
          constructor
          · push_cast
            rw [hk] at he
            nlinarith
          · push_cast
            rw [hk] at he
            nlinarith
  · rw [if_neg hlt] at hx
    push_neg at hlt
    have hk : k2 = k1 + 1 := by
      have hgap : qmod360 (c + 20 / 2) - qmod360 (c - 20 / 2) =
          20 - 360 * ((k2 : ℚ) - k1) := by rw [hs, he]; ring
      have hub : ((k2 - k1 : ℤ) : ℚ) < 2 := by push_cast; nlinarith
      have hlb : (0 : ℚ) < ((k2 - k1 : ℤ) : ℚ) := by push_cast; nlinarith
      have h1 : (k2 - k1 : ℤ) < 2 := by exact_mod_cast hub
      have h2 : (0 : ℤ) < (k2 - k1 : ℤ) := by exact_mod_cast hlb
      omega
    rcases List.mem_append.mp hx with hup | hlo
    · obtain ⟨hxl, hxr⟩ := mem_int_range hup
      have hfls : (0 : ℤ) ≤ ⌊qmod360 (c - 20 / 2)⌋ := Int.le_floor.mpr (by exact_mod_cast hs0)
      refine ⟨by omega, hxr, ?_⟩
      have hfloor_s : qmod360 (c - 20 / 2) - 1 < (⌊qmod360 (c - 20 / 2)⌋ : ℚ) :=
        Int.sub_one_lt_floor _
      have hxlq : ((⌊qmod360 (c - 20 / 2)⌋ : ℤ) : ℚ) ≤ (x : ℚ) := by exact_mod_cast hxl
      have hxrq : (x : ℚ) ≤ 359 := by exact_mod_cast hxr
      have hcl : 350 ≤ c - 360 * (k1 : ℚ) := by
        rw [hk] at he
        push_cast at he
        nlinarith
      calc circDist ((x : ℤ) : ℚ) c ≤ |(x : ℚ) - c - 360 * ((-k1 : ℤ) : ℚ)| :=
            circDist_le_shift _ _ _
        _ < 11 := by
            rw [abs_lt]
            constructor
            · push_cast
              nlinarith
            · push_cast
              nlinarith
    · obtain ⟨hxl, hxr⟩ := mem_int_range hlo
      have hfle : ⌊qmod360 (c + 20 / 2)⌋ < 360 := Int.floor_lt.mpr (by exact_mod_cast he1)
      refine ⟨hxl, by omega, ?_⟩
      have hfloor_e : ((⌊qmod360 (c + 20 / 2)⌋ : ℤ) : ℚ) ≤ qmod360 (c + 20 / 2) :=
        Int.floor_le _
      have hxlq : (0 : ℚ) ≤ (x : ℚ) := by exact_mod_cast hxl
      have hxrq : (x : ℚ) ≤ ((⌊qmod360 (c + 20 / 2)⌋ : ℤ) : ℚ) := by exact_mod_cast hxr
      have hcu : c - 360 * (k2 : ℚ) < 10 := by
        rw [hk]
        push_cast
        nlinarith
      calc circDist ((x : ℤ) : ℚ) c ≤ |(x : ℚ) - c - 360 * ((-k2 : ℤ) : ℚ)| :=
            circDist_le_shift _ _ _
        _ < 11 := by
            rw [abs_lt]
            constructor
            · push_cast
              nlinarith
            · push_cast
              nlinarith

theorem process_pad_row_invariant {p1az : ℚ} {pad : ℕ} {vals : List (Option ℚ)}
    {row : ℤ → Option ℚ} {j : ℤ} {w : ℚ}
    (h : process_pad_row p1az pad vals row j = some w) :
    row j = some w ∨
      (valid_buttons p1az pad vals ≠ [] ∧
       circDist (j : ℚ) (qmod360 (p1az + pad_offsets pad)) < 11) := by
  unfold process_pad_row at h
  cases hvb : valid_buttons p1az pad vals with
  | nil => rw [hvb] at h; exact Or.inl h
  | cons p rest =>
    cases rest with
    | nil =>
      rw [hvb] at h
      rcases writeBin_cases h with ⟨hj, hw⟩ | hrow
      · right
        refine ⟨by simp, ?_⟩
        obtain ⟨i, hi, hfst⟩ :=
          mem_valid_buttons (q := p) (by rw [hvb]; exact List.mem_cons_self _ _)
        have hoff := btn_offset_rev_bounds vals.length i hi
        have habs : |btn_offset_rev vals.length i| ≤ 10 :=
          abs_le.mpr ⟨by linarith [hoff.1], hoff.2⟩
        have hcirc := circDist_floor_azimuth p1az (pad_offsets pad)
          (btn_offset_rev vals.length i) habs
        have haz : p.1 = qmod360 (p1az + pad_offsets pad + btn_offset_rev vals.length i) := by
          rw [hfst]; rfl
        have haz0 : (0:ℚ) ≤ p.1 := by rw [haz]; exact qmod360_nonneg _
        have haz1 : p.1 < 360 := by rw [haz]; exact qmod360_lt _
        have hfl0 : (0:ℤ) ≤ ⌊p.1⌋ := Int.le_floor.mpr (by exact_mod_cast haz0)
        have hfl1 : ⌊p.1⌋ < 360 := Int.floor_lt.mpr (by exact_mod_cast haz1)
        have hmod : ⌊p.1⌋ % 360 = ⌊p.1⌋ := Int.emod_eq_of_lt hfl0 hfl1
        rw [hj, hmod, haz]
        exact hcirc
      · exact Or.inl hrow
    | cons q rest2 =>
      rw [hvb] at h
      rcases interp_foldl_frame _ _ row j w h with hrow | ⟨x, hx, hj⟩
      · exact Or.inl hrow
      · right
        refine ⟨by simp, ?_⟩
        obtain ⟨hx0, hx359, hcirc⟩ := bins_mem_circ hx
        have hmod : x % 360 = x := Int.emod_eq_of_lt hx0 (by omega)
        rw [hj, hmod]
        exact hcirc

theorem within_pad_image_apply (p1az : ℕ → ℚ) (channels : List PadChannel) (d : ℕ) :
    ∀ init : ℕ → ℤ → Option ℚ,
      (channels.foldl
        (fun img ch => fun dd => process_pad_row (p1az dd) ch.pad (ch.vals dd) (img dd))
        init) d =
      channels.foldl (fun r ch => process_pad_row (p1az d) ch.pad (ch.vals d) r)
        (init d) := by
  induction channels with
  | nil => intro init; rfl
  | cons ch rest ih =>
    intro init
    rw [List.foldl_cons, List.foldl_cons]
    exact ih _

theorem foldl_rows_invariant (pz : ℚ) (d : ℕ) :
    ∀ (chs : List PadChannel) (row : ℤ → Option ℚ) (bin : ℤ) (v : ℚ),
      (chs.foldl (fun r ch => process_pad_row pz ch.pad (ch.vals d) r) row) bin = some v →
      row bin = some v ∨
        ∃ ch ∈ chs, valid_buttons pz ch.pad (ch.vals d) ≠ [] ∧
          circDist (bin : ℚ) (qmod360 (pz + pad_offsets ch.pad)) < 11 := by
  intro chs
  induction chs with
  | nil => intro row bin v h; exact Or.inl h
  | cons ch rest ih =>
    intro row bin v h
    rw [List.foldl_cons] at h
    rcases ih _ bin v h with h' | ⟨ch', hmem, hne, hcirc⟩
    · rcases process_pad_row_invariant h' with hrow | ⟨hne, hcirc⟩
      · exact Or.inl hrow
      · exact Or.inr ⟨ch, List.mem_cons_self _ _, hne, hcirc⟩
    · exact Or.inr ⟨ch', List.mem_cons_of_mem _ hmem, hne, hcirc⟩

/-- C2: under the within-pad-only policy a reconstructed cell is non-NaN only
when its bin lies within (a one-degree rounding margin of) the ±10° button
window of some pad with at least one valid reading at that depth — the bin is
circularly within 11° of that pad's center; and in the concrete single-depth
scenario with only pad 1 and pad 3 populated at reference azimuth 0°, every
bin from 21° to 69° stays NaN, whatever the button readings are. -/
theorem C2_within_pad_policy :
    (∀ (p1az : ℕ → ℚ) (channels : List PadChannel) (d : ℕ) (bin : ℤ) (v : ℚ),
      within_pad_image p1az channels d bin = some v →
      ∃ ch ∈ channels, valid_buttons (p1az d) ch.pad (ch.vals d) ≠ [] ∧
        circDist (bin : ℚ) (qmod360 (p1az d + pad_offsets ch.pad)) < 11) ∧
    (∀ (vals1 vals3 : ℕ → List (Option ℚ)) (d : ℕ) (bin : ℤ),
      21 ≤ bin → bin ≤ 69 →
      within_pad_image (fun _ => 0) [⟨1, vals1⟩, ⟨3, vals3⟩] d bin = none) := by
  have main : ∀ (p1az : ℕ → ℚ) (channels : List PadChannel) (d : ℕ) (bin : ℤ) (v : ℚ),
      within_pad_image p1az channels d bin = some v →
      ∃ ch ∈ channels, valid_buttons (p1az d) ch.pad (ch.vals d) ≠ [] ∧
        circDist (bin : ℚ) (qmod360 (p1az d + pad_offsets ch.pad)) < 11 := by
    intro p1az channels d bin v h
    unfold within_pad_image at h
    rw [within_pad_image_apply] at h
    rcases foldl_rows_invariant (p1az d) d channels _ bin v h with hnone | hex
    · exact absurd hnone (by simp)
    · exact hex
  refine ⟨main, ?_⟩
  intro vals1 vals3 d bin h21 h69
  by_contra hne
  have hsome : ∃ v, within_pad_image (fun _ => 0) [⟨1, vals1⟩, ⟨3, vals3⟩] d bin = some v := by
    cases hc : within_pad_image (fun _ => 0) [⟨1, vals1⟩, ⟨3, vals3⟩] d bin with
    | none => exact absurd hc hne
    | some v => exact ⟨v, rfl⟩
  obtain ⟨v, hv⟩ := hsome
  obtain ⟨ch, hch, hvne, hcirc⟩ := main _ _ _ _ _ hv
  have hb21 : (21:ℚ) ≤ (bin:ℚ) := by exact_mod_cast h21
  have hb69 : (bin:ℚ) ≤ 69 := by exact_mod_cast h69
  rcases List.mem_cons.mp hch with rfl | hch'
  · have hpo : pad_offsets (PadChannel.mk 1 vals1).pad = 0 := rfl
    rw [hpo] at hcirc
    have hc0 : qmod360 ((0:ℚ) + 0) = 0 := by
      rw [add_zero]; exact qmod360_eq_self (by norm_num) (by norm_num)
    rw [hc0] at hcirc
    have e0 : qmod360 ((bin:ℚ) - 0) = (bin:ℚ) := by
      rw [sub_zero]; exact qmod360_eq_self (by linarith) (by linarith)
    have e1 : qmod360 ((0:ℚ) - (bin:ℚ)) = 360 - (bin:ℚ) := by
      rw [qmod360_eq_add (by linarith) (by linarith)]; ring
    have hge : (11:ℚ) ≤ circDist (bin:ℚ) 0 := by
      unfold circDist
      rw [e0, e1]
      exact le_min (by linarith) (by linarith)
    linarith
  · rcases List.mem_cons.mp hch' with rfl | hch''
    · have hpo : pad_offsets (PadChannel.mk 3 vals3).pad = 90 := rfl
      rw [hpo] at hcirc
      have hc0 : qmod360 ((0:ℚ) + 90) = 90 := by
        rw [zero_add]; exact qmod360_eq_self (by norm_num) (by norm_num)
      rw [hc0] at hcirc
      have e0 : qmod360 ((bin:ℚ) - 90) = (bin:ℚ) + 270 := by
        rw [qmod360_eq_add (by linarith) (by linarith)]; ring
      have e1 : qmod360 ((90:ℚ) - (bin:ℚ)) = 90 - (bin:ℚ) := by
        exact qmod360_eq_self (by linarith) (by linarith)
      have hge : (11:ℚ) ≤ circDist (bin:ℚ) 90 := by
        unfold circDist
        rw [e0, e1]
        exact le_min (by linarith) (by linarith)
      linarith
    · simp at hch''

unseal Rat.add Rat.mul Rat.sub Rat.inv in
/-- Witness for C2 on a concrete one-channel image: pad 1 with one valid
button at reference azimuth 0° writes bin 0, which is within 11° of pad 1's
center. -/
theorem C2_within_pad_policy_witness :
    ∃ ch ∈ [PadChannel.mk 1 (fun _ => [some (5:ℚ)])],
      valid_buttons ((fun _ => (0:ℚ)) 0) ch.pad (ch.vals 0) ≠ [] ∧
      circDist ((0:ℤ) : ℚ) (qmod360 ((fun _ => (0:ℚ)) 0 + pad_offsets ch.pad)) < 11 :=
  C2_within_pad_policy.1 (fun _ => 0) [PadChannel.mk 1 (fun _ => [some 5])] 0 0 5
    (by decide)

/-! ### Full-circle interpolation (process_cmi_buttons.py STEP 5, lines 206-222)

For each depth row the script gathers the valid azimuth bins, and only when
`np.sum(valid_mask) > 3` interpolates all 360 bins with np.interp(...,
period=360); rows with three or fewer valid bins are left untouched. -/

/-- np.interp with the default boundary behaviour: queries left of the first
point get the first value, right of the last point the last value. -/
def np_interp_clamp (x : ℚ) : List (ℚ × ℚ) → ℚ
  | [] => 0
  | [p] => p.2
  | p :: q :: rest =>
    if x < p.1 then p.2
    else if x ≤ q.1 then p.2 + (q.2 - p.2) * (x - p.1) / (q.1 - p.1)
    else np_interp_clamp x (q :: rest)

/-- The valid (azimuth-bin, value) points of one image row, in ascending bin
order (valid_azimuth / valid_values, lines 211-215). -/
def row_points (row : List (Option ℚ)) : List (ℚ × ℚ) :=
  row.enum.filterMap (fun iv => iv.2.map (fun v => ((iv.1 : ℚ), v)))

/-- One row of STEP 5 (lines 209-222).  With more than 3 valid bins the valid
points are extended periodically by ±360° — np.interp's period=360 semantics:
xp is already sorted in [0,360), so the extension appends the last point
shifted by −360 in front and the first point shifted by +360 behind — and all
360 bins are interpolated; otherwise the row is returned unchanged. -/
def interpolate_row (row : List (Option ℚ)) : List (Option ℚ) :=
  if 3 < (row_points row).length then
    match row_points row with
    | [] => row
    | p :: rest =>
      let lastP := (p :: rest).getLast (List.cons_ne_nil p rest)
      let ext := (lastP.1 - 360, lastP.2) :: (p :: rest) ++ [(p.1 + 360, p.2)]
      (List.range 360).map (fun a : ℕ => some (np_interp_clamp (a : ℚ) ext))
  else row

/-- STEP 5 applied to every depth row of the image (filled_image). -/
def interpolate_image (image : List (List (Option ℚ))) : List (List (Option ℚ)) :=
  image.map interpolate_row

/-- A 360-bin row with exactly two valid bins. -/
def row_with_two_valid : List (Option ℚ) :=
  (List.range 360).map (fun i => if i = 5 then some 10 else if i = 200 then some 30 else none)

/-- C3 counterexample: a depth row with exactly 2 valid (non-missing) bins is
left completely unfilled by the STEP 5 interpolation — the guard requires
more than 3 valid points — so bins (such as bin 0) stay NaN, contradicting
the claim that any row with ≥2 valid buttons becomes gap-free. -/
theorem C3_full_circle_counterexample :
    (row_points row_with_two_valid).length = 2 ∧
    interpolate_row row_with_two_valid = row_with_two_valid ∧
    row_with_two_valid.get? 0 = some none := by
  refine ⟨by decide, ?_, by decide⟩
  unfold interpolate_row
  rw [if_neg (by decide)]

/-- C3 (amended): after STEP 5, a depth row is gap-free (all 360 bins
non-NaN) whenever it has more than 3 valid bins; rows with 3 or fewer valid
bins — in particular rows with exactly 2 valid buttons — are left unchanged
and may retain NaN. -/
theorem C3_full_circle_amended :
    (∀ row : List (Option ℚ), 3 < (row_points row).length →
      ∀ i : ℕ, i < 360 → ((interpolate_row row).getD i none).isSome = true) ∧
    (∀ row : List (Option ℚ), (row_points row).length ≤ 3 →
      interpolate_row row = row) := by
  constructor
  · intro row hlen i hi
    unfold interpolate_row
    rw [if_pos hlen]
    cases hp : row_points row with
    | nil => rw [hp] at hlen; simp at hlen
    | cons p rest =>
      simp only
      rw [List.getD_eq_getElem?_getD, List.getElem?_map, List.getElem?_range hi]
      simp
  · intro row hlen
    unfold interpolate_row
    rw [if_neg (not_lt.mpr hlen)]

/-- Witness for C3 (amended) at concrete inputs: a 4-valid-bin row gets a
non-NaN bin 0; a short row with two valid bins is returned unchanged. -/
theorem C3_full_circle_amended_witness :
    ((interpolate_row ((List.range 360).map
        (fun i => if i ≤ 3 then some ((i : ℚ) + 1) else none))).getD 0 none).isSome = true ∧
    interpolate_row [some 1, none, some 2] = [some 1, none, some 2] :=
  ⟨C3_full_circle_amended.1 _ (by decide) 0 (by norm_num),
   C3_full_circle_amended.2 _ (by decide)⟩

/-! ### Signal conditioning (process_cmi_buttons.py STEP 2 and STEP 3;
the same arithmetic appears in cmi_no_interpolation.py lines 90-112)

Neither conditioning script replaces the −9999 sentinel or negative readings
before these steps; that replacement exists only in the extraction scripts
create_image_log.py (lines 82-83) and create_raw_image_log.py (lines 79-80). -/

/-- One channel group: depth × buttons readings. -/
abbrev ChannelGroup := List (List (Option ℚ))

/-- The per-depth speed factor (STEP 2, lines 106-107):
`speed_factor = zone_mspd / np.nanmedian(zone_mspd)`. -/
def speed_factor (mspd : List (Option ℚ)) (d : ℕ) : Option ℚ :=
  odiv (mspd[d]?).join (nanmedian mspd)

/-- STEP 2 speed correction (lines 113-117): divide every reading at a depth
by that depth's speed factor. -/
def speed_correct (mspd : List (Option ℚ)) (g : ChannelGroup) : ChannelGroup :=
  g.enum.map (fun drow => drow.2.map (fun v => odiv v (speed_factor mspd drow.1)))

/-- np.nanmedian over a whole 2-D channel group (line 133). -/
def group_median (g : ChannelGroup) : Option ℚ := nanmedian g.flatten

/-- The global median across groups (line 138): np.nanmedian of the per-group
medians, which ignores NaN medians. -/
def global_median (groups : List ChannelGroup) : Option ℚ :=
  medianQ ((groups.map group_median).filterMap id)

/-- STEP 3 pad normalization (lines 141-146): a group whose median is > 0 is
multiplied by (global median / group median); any other group — median ≤ 0,
or undefined on an all-missing group — is left untouched. -/
def pad_normalize (groups : List ChannelGroup) : List ChannelGroup :=
  groups.map (fun g =>
    match group_median g with
    | some m =>
      if 0 < m then
        g.map (fun row => row.map (fun v =>
          omul v (odiv (global_median groups) (some m))))
      else g
    | none => g)

/-- The channels reported during STEP 3: the only per-group output of the
script is the print inside the `if stats['median'] > 0` branch (line 145),
so exactly the rescaled groups are reported; groups skipped by the guard are
not flagged anywhere (cmi_no_interpolation.py prints nothing per group). -/
def reported_channels (groups : List ChannelGroup) : List ℕ :=
  groups.enum.filterMap (fun ig =>
    match group_median ig.2 with
    | some m => if 0 < m then some ig.1 else none
    | none => none)

/-- The Signal Conditioner of process_cmi_buttons.py: STEP 2 then STEP 3.
No null scrubbing precedes either step. -/
def condition_groups (mspd : List (Option ℚ)) (groups : List ChannelGroup) :
    List ChannelGroup :=
  pad_normalize (groups.map (speed_correct mspd))

/-- Sentinel scrubbing as performed at extraction time in create_image_log.py
lines 82-83 / create_raw_image_log.py lines 79-80 — and nowhere in the two
conditioning scripts: a value equal to −9999, or negative, becomes NaN. -/
def scrub_value (x : ℚ) : Option ℚ :=
  if x = -9999 then none else if x < 0 then none else some x

/-- One cell of a list of channel groups. -/
def cell? (groups : List ChannelGroup) (g d b : ℕ) : Option (Option ℚ) :=
  groups[g]?.bind (fun G => G[d]?.bind (fun row => row[b]?))

theorem insertQ_length (x : ℚ) (l : List ℚ) : (insertQ x l).length = l.length + 1 := by
  induction l with
  | nil => rfl
  | cons y rest ih =>
    unfold insertQ
    by_cases h : x ≤ y
    · rw [if_pos h]; rfl
    · rw [if_neg h]; simp [ih]

theorem sortQ_length (l : List ℚ) : (sortQ l).length = l.length := by
  induction l with
  | nil => rfl
  | cons x rest ih => unfold sortQ; rw [insertQ_length, ih]; rfl

theorem medianQ_isSome {l : List ℚ} (h : l ≠ []) : ∃ m, medianQ l = some m := by
  have hpos : 0 < l.length := List.length_pos.mpr h
  have hlen := sortQ_length l
  unfold medianQ
  rw [if_neg (by omega)]
  by_cases hodd : (sortQ l).length % 2 = 1
  · rw [if_pos hodd]
    cases hg : (sortQ l).get? ((sortQ l).length / 2) with
    | none => rw [List.get?_eq_none] at hg; omega
    | some a => exact ⟨a, rfl⟩
  · rw [if_neg hodd]
    cases hg1 : (sortQ l).get? ((sortQ l).length / 2 - 1) with
    | none => rw [List.get?_eq_none] at hg1; omega
    | some a =>
      cases hg2 : (sortQ l).get? ((sortQ l).length / 2) with
      | none => rw [List.get?_eq_none] at hg2; omega
      | some b => exact ⟨(a + b) / 2, rfl⟩

theorem global_median_isSome {groups : List ChannelGroup} {g : ChannelGroup}
    {m : ℚ} (hg : g ∈ groups) (hm : group_median g = some m) :
    ∃ G, global_median groups = some G := by
  apply medianQ_isSome
  intro hempty
  have : m ∈ (groups.map group_median).filterMap id := by
    apply List.mem_filterMap.mpr
    exact ⟨some m, List.mem_map.mpr ⟨g, hg, hm⟩, rfl⟩
  rw [hempty] at this
  simp at this

theorem odiv_none_iff {v? : Option ℚ} {f : ℚ} (hf0 : f ≠ 0) :
    odiv v? (some f) = none ↔ v? = none := by
  cases v? with
  | none => simp [odiv]
  | some v => simp [odiv, hf0]

theorem omul_some_none_iff {v? : Option ℚ} {c : ℚ} :
    omul v? (some c) = none ↔ v? = none := by
  cases v? with
  | none => simp [omul]
  | some v => simp [omul]

/-- Conditioning never turns a present reading into a missing one (nor the
converse): the conditioned cell is missing exactly when the raw cell is,
whenever the depth's speed factor is defined and non-zero. -/
theorem condition_preserves_missingness {mspd : List (Option ℚ)}
    {groups : List ChannelGroup} {g d b : ℕ} {v? : Option ℚ} {f : ℚ}
    (hv : cell? groups g d b = some v?)
    (hf : speed_factor mspd d = some f) (hf0 : f ≠ 0) :
    ∃ w?, cell? (condition_groups mspd groups) g d b = some w? ∧
      (w? = none ↔ v? = none) := by
  obtain ⟨G, hG, hrest⟩ := Option.bind_eq_some.mp hv
  obtain ⟨row, hrow, hb⟩ := Option.bind_eq_some.mp hrest
  have hSC : (groups.map (speed_correct mspd))[g]? = some (speed_correct mspd G) := by
    rw [List.getElem?_map, hG]; rfl
  have hSCd : (speed_correct mspd G)[d]? =
      some (row.map (fun v => odiv v (speed_factor mspd d))) := by
    unfold speed_correct
    rw [List.getElem?_map, List.getElem?_enum, hrow]
    rfl
  have hSCb : (row.map (fun v => odiv v (speed_factor mspd d)))[b]? =
      some (odiv v? (speed_factor mspd d)) := by
    rw [List.getElem?_map, hb]; rfl
  have hwnone : odiv v? (speed_factor mspd d) = none ↔ v? = none := by
    rw [hf]; exact odiv_none_iff hf0
  unfold condition_groups cell? pad_normalize
  rw [List.getElem?_map, hSC]
  simp only [Option.map_some', Option.some_bind]
  cases hm : group_median (speed_correct mspd G) with
  | none =>
    rw [hSCd]
    simp only [Option.some_bind]
    rw [hSCb]
    exact ⟨_, rfl, hwnone⟩
  | some m =>
    simp only []
    by_cases h0 : 0 < m
    · rw [if_pos h0]
      obtain ⟨Gm, hGm⟩ := global_median_isSome
        (List.getElem?_mem hSC) hm
      rw [List.getElem?_map, hSCd]
      simp only [Option.map_some', Option.some_bind]
      rw [List.getElem?_map, hSCb]
      simp only [Option.map_some', Option.some_bind]
      refine ⟨_, rfl, ?_⟩
      rw [hGm]
      have hm0 : m ≠ 0 := ne_of_gt h0
      have : odiv (some Gm) (some m) = some (Gm / m) := by simp [odiv, hm0]
      rw [this, omul_some_none_iff]
      exact hwnone
    · rw [if_neg h0]
      rw [hSCd]
      simp only [Option.some_bind]
      rw [hSCb]
      exact ⟨_, rfl, hwnone⟩

unseal Rat.add Rat.mul Rat.sub Rat.inv in
/-- C1 counterexample: in the Signal Conditioner a raw −9999 sentinel is NOT
replaced by a missing marker before speed correction and pad normalization —
it flows through both steps as a numeric reading and reaches the conditioned
output unchanged (here with unit speed factor and an unscaled group). -/
theorem C1_null_scrubbing_counterexample :
    cell? (condition_groups [some 100] [[[some (-9999), some 5]]]) 0 0 0 =
      some (some (-9999)) := by decide

/-- C1 (amended): the conditioning scripts perform no null scrubbing — a
raw value equal to −9999 or negative is carried through speed correction and
pad normalization as a numeric reading, so conditioning preserves
missingness exactly (whenever the depth's speed factor is defined and
non-zero, nothing becomes missing and nothing missing becomes a value);
replacement of −9999/negative readings by NaN happens only in the separate
extraction scripts create_image_log.py / create_raw_image_log.py. -/
theorem C1_no_null_scrubbing_amended :
    (∀ (mspd : List (Option ℚ)) (groups : List ChannelGroup) (g d b : ℕ)
      (v? : Option ℚ) (f : ℚ),
      cell? groups g d b = some v? →
      speed_factor mspd d = some f → f ≠ 0 →
      ∃ w?, cell? (condition_groups mspd groups) g d b = some w? ∧
        (w? = none ↔ v? = none)) ∧
    (scrub_value (-9999) = none ∧ (∀ x : ℚ, x < 0 → scrub_value x = none) ∧
     (∀ x : ℚ, 0 ≤ x → scrub_value x = some x)) := by
  refine ⟨fun mspd groups g d b v? f hv hf hf0 =>
    condition_preserves_missingness hv hf hf0, ?_, ?_, ?_⟩
  · norm_num [scrub_value]
  · intro x hx
    unfold scrub_value
    by_cases h9 : x = -9999
    · rw [if_pos h9]
    · rw [if_neg h9, if_pos hx]
  · intro x hx
    unfold scrub_value
    rw [if_neg (by intro h; rw [h] at hx; norm_num at hx),
      if_neg (not_lt.mpr hx)]

unseal Rat.add Rat.mul Rat.sub Rat.inv in
/-- Witness for C1 (amended) at a concrete input: one valid reading, unit
speed factor. -/
theorem C1_no_null_scrubbing_amended_witness :
    ∃ w?, cell? (condition_groups [some 100] [[[some (3:ℚ)]]]) 0 0 0 = some w? ∧
      (w? = none ↔ (some (3:ℚ) : Option ℚ) = none) :=
  C1_no_null_scrubbing_amended.1 [some 100] [[[some 3]]] 0 0 0 (some 3) 1
    (by decide) (by decide) (by norm_num)

unseal Rat.add Rat.mul Rat.sub Rat.inv in
/-- C6 counterexample: a channel group whose median is ≤ 0 (here the median
is 0) is left unscaled but is NOT flagged: the script's only per-group
report (the print inside the `median > 0` branch) covers exactly the
rescaled groups, so the reported-channel list for these two groups is [1]
and omits group 0. -/
theorem C6_flagging_counterexample :
    group_median [[some (0:ℚ), some 0]] = some 0 ∧
    reported_channels [[[some (0:ℚ), some 0]], [[some 4, some 6]]] = [1] ∧
    pad_normalize [[[some (0:ℚ), some 0]], [[some 4, some 6]]] =
      [[[some 0, some 0]], [[some 2, some 3]]] := by
  refine ⟨by decide, by decide, by decide⟩

/-- C6 (amended): in pad normalization a channel group with median ≤ 0 (or
with no median, when all readings are missing) is left unscaled and is NOT
flagged — it is absent from the script's per-channel report, which covers
only the rescaled groups; every group with median > 0 has each value
multiplied by (global median / group median), the global median being the
nanmedian of the per-group medians, and is reported. -/
theorem C6_pad_normalization_amended :
    ∀ (groups : List ChannelGroup) (i : ℕ) (g : ChannelGroup),
      groups[i]? = some g →
      (∀ m, group_median g = some m → m ≤ 0 →
        (pad_normalize groups)[i]? = some g ∧ i ∉ reported_channels groups) ∧
      (group_median g = none →
        (pad_normalize groups)[i]? = some g ∧ i ∉ reported_channels groups) ∧
      (∀ m, group_median g = some m → 0 < m →
        (pad_normalize groups)[i]? =
          some (g.map (fun row => row.map (fun v =>
            omul v (odiv (global_median groups) (some m))))) ∧
        i ∈ reported_channels groups) := by
  intro groups i g hi
  have hnotmem : ∀ (hbad : ∀ m', group_median g = some m' → ¬ 0 < m'),
      i ∉ reported_channels groups := by
    intro hbad hmem
    unfold reported_channels at hmem
    obtain ⟨jg, hjg, hfj⟩ := List.mem_filterMap.mp hmem
    obtain ⟨j, g'⟩ := jg
    cases hm' : group_median g' with
    | none => rw [hm'] at hfj; simp at hfj
    | some m' =>
      rw [hm'] at hfj
      simp only at hfj
      by_cases h0' : 0 < m'
      · rw [if_pos h0'] at hfj
        have hj : j = i := by simpa using hfj
        subst hj
        have hg' : groups[j]? = some g' := (List.mk_mem_enum_iff_getElem?).mp hjg
        rw [hi] at hg'
        have : g' = g := by simpa using hg'.symm
        subst this
        exact hbad m' hm' h0'
      · rw [if_neg h0'] at hfj; simp at hfj
  refine ⟨?_, ?_, ?_⟩
  · intro m hm hle
    constructor
    · unfold pad_normalize
      rw [List.getElem?_map, hi]
      simp only [Option.map_some']
      rw [hm]
      simp only
      rw [if_neg (not_lt.mpr hle)]
    · exact hnotmem (fun m' hm' => by
        rw [hm] at hm'
        have : m' = m := by simpa using hm'.symm
        subst this
        exact not_lt.mpr hle)
  · intro hm
    constructor
    · unfold pad_normalize
      rw [List.getElem?_map, hi]
      simp only [Option.map_some']
      rw [hm]
    · exact hnotmem (fun m' hm' => by rw [hm] at hm'; simp at hm')
  · intro m hm h0
    constructor
    · unfold pad_normalize
      rw [List.getElem?_map, hi]
      simp only [Option.map_some']
      rw [hm]
      simp only
      rw [if_pos h0]
    · unfold reported_channels
      apply List.mem_filterMap.mpr
      refine ⟨(i, g), (List.mk_mem_enum_iff_getElem?).mpr hi, ?_⟩
      simp only
      rw [hm]
      simp only
      rw [if_pos h0]

unseal Rat.add Rat.mul Rat.sub Rat.inv in
/-- Witness for C6 (amended) at a concrete input: group 0 (median 0) is
unscaled and unreported; the scaled-branch clause applies to group 1. -/
theorem C6_pad_normalization_amended_witness :
    (pad_normalize [[[some (0:ℚ), some 0]], [[some 4, some 6]]])[0]? =
      some [[some (0:ℚ), some 0]] ∧
    0 ∉ reported_channels [[[some (0:ℚ), some 0]], [[some 4, some 6]]] :=
  (C6_pad_normalization_amended [[[some (0:ℚ), some 0]], [[some 4, some 6]]] 0
    [[some (0:ℚ), some 0]] (by decide)).1 0 (by decide) (by norm_num)

/-! ### Intensity normalization (process_cmi_buttons.py STEP 7, lines 241-253)

`p05/p95 = np.nanpercentile(smoothed_image, 5/95)`, then
`normalized = 255 * (np.clip(img, p05, p95) - p05) / (p95 - p05)`. -/

/-- All valid cells of an image, row-major. -/
def image_valid (image : List (List (Option ℚ))) : List ℚ :=
  image.flatten.filterMap id

/-- np.clip to the band [lo, hi]. -/
def clip (x lo hi : ℚ) : ℚ := min (max x lo) hi

/-- STEP 7.  When P05 = P95 every cell — valid or NaN — maps to NaN: the
numerator is zero for every valid cell after clipping and numpy's 0/0 is
NaN; when the image has no valid cell both percentiles are NaN and every
cell maps to NaN; otherwise valid cells are clipped and rescaled and NaN
cells propagate. -/
def normalize_255 (image : List (List (Option ℚ))) : List (List (Option ℚ)) :=
  match percentileQ 5 (image_valid image), percentileQ 95 (image_valid image) with
  | some p05, some p95 =>
    if p05 = p95 then image.map (fun row => row.map (fun _ => none))
    else image.map (fun row => row.map (fun v? =>
      v?.map (fun v => 255 * (clip v p05 p95 - p05) / (p95 - p05))))
  | _, _ => image.map (fun row => row.map (fun _ => none))

unseal Rat.add Rat.mul Rat.sub Rat.inv in
/-- C7 counterexample: on a constant image the P05 and P95 percentiles
coincide and the normalization maps the valid cell 7 to NaN — a new NaN cell
is introduced, so NaN-preservation fails as stated. -/
theorem C7_normalization_counterexample :
    normalize_255 [[some (7:ℚ)]] = [[none]] ∧
    (some (7:ℚ) : Option ℚ) ≠ none := by
  refine ⟨by decide, by decide⟩

/-- C7 (amended): whenever the P05 and P95 percentiles of the valid data
differ, the STEP 7 normalization preserves NaN exactly (a cell of the output
is NaN iff the input cell is) and maps every non-NaN cell into [0, 255]; if
the percentiles coincide (e.g. a constant image) every cell becomes NaN. -/
theorem C7_normalization_amended :
    ∀ (image : List (List (Option ℚ))) (a b : ℚ),
      percentileQ 5 (image_valid image) = some a →
      percentileQ 95 (image_valid image) = some b →
      a < b →
      ∀ (r c : ℕ) (v? : Option ℚ),
        (image[r]?.bind (fun row => row[c]?)) = some v? →
        ∃ w?, ((normalize_255 image)[r]?.bind (fun row => row[c]?)) = some w? ∧
          (w? = none ↔ v? = none) ∧
          0 ≤ w?.getD 0 ∧ w?.getD 0 ≤ 255 := by
  intro image a b hp05 hp95 hab r c v? hv
  obtain ⟨row, hrow, hc⟩ := Option.bind_eq_some.mp hv
  have hne : a ≠ b := ne_of_lt hab
  have hfun : normalize_255 image = image.map (fun row => row.map (fun v? =>
      v?.map (fun v => 255 * (clip v a b - a) / (b - a)))) := by
    unfold normalize_255
    rw [hp05, hp95]
    simp only
    rw [if_neg hne]
  rw [hfun]
  rw [List.getElem?_map, hrow]
  simp only [Option.map_some', Option.some_bind]
  rw [List.getElem?_map, hc]
  simp only [Option.map_some']
  refine ⟨_, rfl, ?_, ?_, ?_⟩
  · cases v? <;> simp
  · cases v? with
    | none => simp
    | some v =>
      simp only [Option.map_some', Option.getD_some]
      have hcl : a ≤ clip v a b := by
        unfold clip
        exact le_min (le_max_right v a) (le_of_lt hab)
      apply div_nonneg
      · nlinarith
      · linarith
  · cases v? with
    | none => simp
    | some v =>
      simp only [Option.map_some', Option.getD_some]
      have hcu : clip v a b ≤ b := by
        unfold clip
        exact min_le_right _ _
      have hcl : a ≤ clip v a b := by
        unfold clip
        exact le_min (le_max_right v a) (le_of_lt hab)
      rw [div_le_iff₀ (by linarith : (0:ℚ) < b - a)]
      nlinarith

unseal Rat.add Rat.mul Rat.sub Rat.inv in
/-- Witness for C7 (amended) at a concrete two-cell image with distinct
percentiles. -/
theorem C7_normalization_amended_witness :
    ∃ w?, ((normalize_255 [[some (0:ℚ), some 100]])[0]?.bind
        (fun row => row[0]?)) = some w? ∧
      (w? = none ↔ (some (0:ℚ) : Option ℚ) = none) ∧
      0 ≤ w?.getD 0 ∧ w?.getD 0 ≤ 255 :=
  C7_normalization_amended [[some 0, some 100]] 5 95 (by decide) (by decide)
    (by norm_num) 0 0 (some 0) (by decide)

/-! ### Coal seam extraction (detect_coal_seams.py lines 92-121)

`scipy.ndimage.label` on a 1-D boolean mask labels exactly the maximal
contiguous runs of True, in order of appearance; the zone loop then emits a
seam record for each labelled run whose thickness reaches MIN_THICKNESS. -/

def CONDUCTIVITY_CUTOFF : ℚ := 178
def SIDERITE_DENSITY_CUTOFF : ℚ := 5/2
def MIN_THICKNESS : ℚ := 1/10

/-- One emitted coal seam record (Top_m, Base_m, Thickness_m,
AvgConductivity, NumSamples). -/
structure CoalSeam where
  top : ℚ
  base : ℚ
  thickness : ℚ
  avg_conductivity : ℚ
  num_samples : ℕ
deriving DecidableEq

/-- A run starts at s when the mask holds there and fails just before. -/
def is_run_start (mask : ℕ → Bool) (s : ℕ) : Bool :=
  mask s && (decide (s = 0) || !mask (s - 1))

/-- Walk forward while the mask holds, with fuel bounding the walk. -/
def run_end_go (mask : ℕ → Bool) : ℕ → ℕ → ℕ
  | s, 0 => s
  | s, fuel + 1 => if mask (s + 1) = true then run_end_go mask (s + 1) fuel else s

/-- Last index of the run starting at s, within the first n samples. -/
def run_end (mask : ℕ → Bool) (n s : ℕ) : ℕ := run_end_go mask s (n - 1 - s)

/-- The labelled runs of a 1-D boolean mask over indices 0..n−1, as
(first index, last index) pairs, in order of appearance — the model of
scipy.ndimage.label as used on coal_mask (line 92). -/
def label_runs (n : ℕ) (mask : ℕ → Bool) : List (ℕ × ℕ) :=
  (List.range n).filterMap (fun s =>
    if is_run_start mask s = true then some (s, run_end mask n s) else none)

/-- Declarative characterisation: [s, e] is a maximal contiguous True run. -/
def isMaxRun (n : ℕ) (mask : ℕ → Bool) (s e : ℕ) : Prop :=
  s ≤ e ∧ e < n ∧ (∀ k, s ≤ k → k ≤ e → mask k = true) ∧
  (s = 0 ∨ mask (s - 1) = false) ∧ (e = n - 1 ∨ mask (e + 1) = false)

/-- Mean of smoothed conductivity over the run's samples
(np.nanmean(smoothed[zone_mask]), line 111). -/
def run_mean (smoothed : ℕ → ℚ) (s e : ℕ) : ℚ :=
  ((List.range (e + 1 - s)).map (fun k : ℕ => smoothed (s + k))).sum / ((e + 1 - s : ℕ) : ℚ)

/-- The seam-extraction loop (lines 96-119): one record per labelled run of
thickness ≥ MIN_THICKNESS, carrying top/base depth, thickness, mean smoothed
conductivity and sample count. -/
def detect_seams (depth smoothed : ℕ → ℚ) (n : ℕ) (mask : ℕ → Bool) :
    List CoalSeam :=
  (label_runs n mask).filterMap (fun se =>
    if MIN_THICKNESS ≤ depth se.2 - depth se.1 then
      some ⟨depth se.1, depth se.2, depth se.2 - depth se.1,
            run_mean smoothed se.1 se.2, se.2 + 1 - se.1⟩
    else none)

theorem run_end_go_spec (mask : ℕ → Bool) :
    ∀ (fuel s : ℕ), mask s = true →
      s ≤ run_end_go mask s fuel ∧ run_end_go mask s fuel ≤ s + fuel ∧
      (∀ k, s ≤ k → k ≤ run_end_go mask s fuel → mask k = true) ∧
      (run_end_go mask s fuel = s + fuel ∨ mask (run_end_go mask s fuel + 1) = false) := by
  intro fuel
  induction fuel with
  | zero =>
    intro s hs
    simp only [run_end_go]
    refine ⟨le_refl s, by omega, ?_, Or.inl (by omega)⟩
    intro k h1 h2
    have : k = s := by omega
    rw [this]; exact hs
  | succ fuel ih =>
    intro s hs
    simp only [run_end_go]
    by_cases hnext : mask (s + 1) = true
    · rw [if_pos hnext]
      obtain ⟨h1, h2, h3, h4⟩ := ih (s + 1) hnext
      refine ⟨by omega, by omega, ?_, ?_⟩
      · intro k hk1 hk2
        rcases Nat.eq_or_lt_of_le hk1 with rfl | hk
        · exact hs
        · exact h3 k (by omega) hk2
      · rcases h4 with h | h
        · exact Or.inl (by omega)
        · exact Or.inr h
    · rw [if_neg hnext]
      refine ⟨le_refl s, by omega, ?_, ?_⟩
      · intro k h1 h2
        have : k = s := by omega
        rw [this]; exact hs
      · exact Or.inr (by simpa using hnext)

theorem run_end_unique {n : ℕ} {mask : ℕ → Bool} {s e : ℕ}
    (h : isMaxRun n mask s e) : run_end mask n s = e := by
  obtain ⟨hse, hen, hall, _, hend⟩ := h
  have hs : mask s = true := hall s (le_refl s) hse
  obtain ⟨h1, h2, h3, h4⟩ := run_end_go_spec mask (n - 1 - s) s hs
  unfold run_end
  by_contra hne
  rcases Nat.lt_or_ge (run_end_go mask s (n - 1 - s)) e with hlt | hge
  · have hm : mask (run_end_go mask s (n - 1 - s) + 1) = true :=
      hall _ (by omega) (by omega)
    rcases h4 with h | h
    · omega
    · rw [h] at hm; exact absurd hm (by simp)
  · have hm : mask (e + 1) = true := h3 (e + 1) (by omega) (by omega)
    rcases hend with h | h
    · omega
    · rw [h] at hm; exact absurd hm (by simp)

theorem mem_label_runs_iff (n : ℕ) (mask : ℕ → Bool) (s e : ℕ) :
    (s, e) ∈ label_runs n mask ↔ isMaxRun n mask s e := by
  constructor
  · intro h
    unfold label_runs at h
    obtain ⟨s', hs', hf⟩ := List.mem_filterMap.mp h
    by_cases hstart : is_run_start mask s' = true
    · rw [if_pos hstart] at hf
      have hpair : (s', run_end mask n s') = (s, e) := by simpa using hf
      have hss : s' = s := congrArg Prod.fst hpair
      subst hss
      have he : run_end mask n s' = e := congrArg Prod.snd hpair
      have hsn : s' < n := List.mem_range.mp hs'
      unfold is_run_start at hstart
      rw [Bool.and_eq_true] at hstart
      have hms : mask s' = true := hstart.1
      have hbound : s' = 0 ∨ mask (s' - 1) = false := by
        rcases (Bool.or_eq_true _ _).mp hstart.2 with h0 | hp
        · exact Or.inl (of_decide_eq_true h0)
        · exact Or.inr (by simpa using hp)
      obtain ⟨h1, h2, h3, h4⟩ := run_end_go_spec mask (n - 1 - s') s' hms
      unfold run_end at he
      rw [he] at h1 h2 h3 h4
      refine ⟨h1, by omega, h3, hbound, ?_⟩
      rcases h4 with h | h
      · exact Or.inl (by omega)
      · exact Or.inr h
    · rw [if_neg hstart] at hf
      simp at hf
  · intro h
    have he := run_end_unique h
    obtain ⟨hse, hen, hall, hstart, hend⟩ := h
    unfold label_runs
    apply List.mem_filterMap.mpr
    refine ⟨s, List.mem_range.mpr (by omega), ?_⟩
    have hms : mask s = true := hall s (le_refl s) hse
    have hstart' : is_run_start mask s = true := by
      unfold is_run_start
      rw [hms]
      simp only [Bool.true_and]
      rcases hstart with h0 | hprev
      · subst h0; simp
      · rw [hprev]; simp
    rw [if_pos hstart', he]

theorem detect_seams_thickness {depth smoothed : ℕ → ℚ} {n : ℕ}
    {mask : ℕ → Bool} {seam : CoalSeam}
    (h : seam ∈ detect_seams depth smoothed n mask) :
    MIN_THICKNESS ≤ seam.thickness := by
  unfold detect_seams at h
  obtain ⟨se, hse, hf⟩ := List.mem_filterMap.mp h
  by_cases hth : MIN_THICKNESS ≤ depth se.2 - depth se.1
  · rw [if_pos hth] at hf
    have : (⟨depth se.1, depth se.2, depth se.2 - depth se.1,
        run_mean smoothed se.1 se.2, se.2 + 1 - se.1⟩ : CoalSeam) = seam := by
      simpa using hf
    rw [← this]
    exact hth
  · rw [if_neg hth] at hf
    simp at hf

/-- The synthetic coal mask: with 2 mm sampling, runs of 25, 50, 75 and 150
samples (0.05 m, 0.10 m, 0.15 m and 0.30 m of samples) separated by gaps. -/
def synthetic_mask (i : ℕ) : Bool :=
  decide ((5 ≤ i ∧ i < 30) ∨ (35 ≤ i ∧ i < 85) ∨ (90 ≤ i ∧ i < 165) ∨
    (170 ≤ i ∧ i < 320))

/-- Depth grid with exact 2 mm spacing, in meters. -/
def depth_2mm (i : ℕ) : ℚ := (i : ℚ) / 500

set_option maxRecDepth 8000 in
unseal Rat.add Rat.mul Rat.sub Rat.inv in
/-- C4: the seam extractor labels exactly the maximal contiguous runs of the
boolean coal mask; it emits a record for a labelled run if and only if the
run's thickness (base depth minus top depth) reaches MIN_THICKNESS = 0.10 m;
and on the synthetic mask with runs of 25, 50, 75, 150 samples at 2 mm
spacing only the 0.15 m and 0.30 m runs yield records — a 50-sample run
spans only 49 spacings = 0.098 m and is dropped. -/
theorem C4_thickness_filter :
    (∀ (n : ℕ) (mask : ℕ → Bool) (s e : ℕ),
      (s, e) ∈ label_runs n mask ↔ isMaxRun n mask s e) ∧
    (∀ (depth smoothed : ℕ → ℚ) (n : ℕ) (mask : ℕ → Bool) (s e : ℕ),
      (s, e) ∈ label_runs n mask →
      ((∃ seam ∈ detect_seams depth smoothed n mask,
          seam.top = depth s ∧ seam.base = depth e ∧
          seam.thickness = depth e - depth s ∧ seam.num_samples = e + 1 - s) ↔
        MIN_THICKNESS ≤ depth e - depth s)) ∧
    (detect_seams depth_2mm (fun _ => 50) 330 synthetic_mask =
      [⟨90/500, 164/500, 74/500, 50, 75⟩, ⟨170/500, 319/500, 149/500, 50, 150⟩]) := by
  refine ⟨mem_label_runs_iff, ?_, ?_⟩
  · intro depth smoothed n mask s e hrun
    constructor
    · rintro ⟨seam, hmem, htop, hbase, hth, hns⟩
      have := detect_seams_thickness hmem
      rw [hth] at this
      exact this
    · intro hth
      refine ⟨⟨depth s, depth e, depth e - depth s,
        run_mean smoothed s e, e + 1 - s⟩, ?_, rfl, rfl, rfl, rfl⟩
      unfold detect_seams
      apply List.mem_filterMap.mpr
      exact ⟨(s, e), hrun, by rw [if_pos hth]⟩
  · decide

set_option maxRecDepth 8000 in
unseal Rat.add Rat.mul Rat.sub Rat.inv in
/-- Witness for C4 at a concrete input: the emission criterion applied to
the 75-sample run (90, 164) of the synthetic mask. -/
theorem C4_thickness_filter_witness :
    (∃ seam ∈ detect_seams depth_2mm (fun _ => 50) 330 synthetic_mask,
        seam.top = depth_2mm 90 ∧ seam.base = depth_2mm 164 ∧
        seam.thickness = depth_2mm 164 - depth_2mm 90 ∧
        seam.num_samples = 164 + 1 - 90) ↔
      MIN_THICKNESS ≤ depth_2mm 164 - depth_2mm 90 :=
  C4_thickness_filter.2.1 depth_2mm (fun _ => 50) 330 synthetic_mask 90 164
    (by decide)

/-! ### Coal mask construction (detect_coal_seams.py lines 76-88) -/

/-- Line 77: coal candidates by conductivity alone. -/
def coal_mask_conductivity (smoothed : List ℚ) : List Bool :=
  smoothed.map (fun x => decide (x < CONDUCTIVITY_CUTOFF))

/-- Line 83: siderite rows by density. -/
def siderite_mask (rhob : List ℚ) : List Bool :=
  rhob.map (fun x => decide (SIDERITE_DENSITY_CUTOFF < x))

/-- Line 87: `coal_mask = coal_mask_conductivity & ~siderite_mask`. -/
def coal_mask (smoothed rhob : List ℚ) : List Bool :=
  List.zipWith (fun a b => a && !b)
    (coal_mask_conductivity smoothed) (siderite_mask rhob)

/-- C5: the final coal mask is the conductivity mask AND the negation of the
density-above-cutoff mask; in particular every depth row with resampled
density above 2.5 g/cc is excluded from the final mask, even when its
smoothed conductivity is below the cutoff. -/
theorem C5_siderite_exclusion :
    (∀ (smoothed rhob : List ℚ) (i : ℕ) (x ρ : ℚ),
      smoothed[i]? = some x → rhob[i]? = some ρ →
      (coal_mask smoothed rhob)[i]? =
        some (decide (x < CONDUCTIVITY_CUTOFF) &&
          !decide (SIDERITE_DENSITY_CUTOFF < ρ))) ∧
    (∀ (smoothed rhob : List ℚ) (i : ℕ) (x ρ : ℚ),
      smoothed[i]? = some x → rhob[i]? = some ρ →
      SIDERITE_DENSITY_CUTOFF < ρ →
      (coal_mask smoothed rhob)[i]? = some false) := by
  have main : ∀ (smoothed rhob : List ℚ) (i : ℕ) (x ρ : ℚ),
      smoothed[i]? = some x → rhob[i]? = some ρ →
      (coal_mask smoothed rhob)[i]? =
        some (decide (x < CONDUCTIVITY_CUTOFF) &&
          !decide (SIDERITE_DENSITY_CUTOFF < ρ)) := by
    intro smoothed rhob i x ρ hx hρ
    unfold coal_mask coal_mask_conductivity siderite_mask
    rw [List.getElem?_zipWith]
    rw [List.getElem?_map, List.getElem?_map, hx, hρ]
    rfl
  refine ⟨main, ?_⟩
  intro smoothed rhob i x ρ hx hρ hcut
  rw [main smoothed rhob i x ρ hx hρ]
  rw [decide_eq_true hcut]
  simp

/-- Witness for C5 at a concrete input: a row below the conductivity cutoff
but above the density cutoff is excluded. -/
theorem C5_siderite_exclusion_witness :
    (coal_mask [100] [3])[0]? = some false :=
  C5_siderite_exclusion.2 [100] [3] 0 100 3 (by decide) (by decide)
    (by norm_num [SIDERITE_DENSITY_CUTOFF])

/-! ### Fracture-region azimuth centers (detect_features.py lines 173-184)

For a region's azimuth indices, the code sorts them, takes adjacent
differences, and — when the largest difference exceeds 180° (the region
straddles 0°/360°) — computes `(min + max + 360) / 2 % 360`; otherwise the
plain arithmetic mean.  A single index is its own center. -/

/-- Insert into a sorted list of naturals. -/
def insertNat (x : ℕ) : List ℕ → List ℕ
  | [] => [x]
  | y :: rest => if x ≤ y then x :: y :: rest else y :: insertNat x rest

/-- Insertion sort on naturals (np.sort). -/
def sortNat : List ℕ → List ℕ
  | [] => []
  | x :: rest => insertNat x (sortNat rest)

/-- Adjacent differences (np.diff) of a list of naturals. -/
def diffs : List ℕ → List ℕ
  | [] => []
  | [_] => []
  | a :: b :: rest => (b - a) :: diffs (b :: rest)

/-- The az_center computation of detect_features.py lines 173-184. -/
def az_center : List ℕ → Option ℚ
  | [] => none
  | [a] => some a
  | a :: b :: rest =>
    if 180 < (diffs (sortNat (a :: b :: rest))).foldl max 0 then
      some (qmod360 ((((a :: b :: rest).foldl min a : ℕ) +
        ((a :: b :: rest).foldl max a : ℕ) + 360) / 2))
    else
      some ((((a :: b :: rest).map (fun i : ℕ => (i : ℚ))).sum) /
        ((a :: b :: rest).length : ℚ))

/-- Modelled from the spec: the "circular-mean aware" azimuth center — the
arithmetic mean of the region's azimuth indices after unwrapping indices
above 180° by −360° (so a region straddling 0°/360° is averaged in one
contiguous frame), reduced modulo 360.  On the counterexample region below,
which is symmetric about 0°, this agrees exactly with the trigonometric
circular mean (both are 0°). -/
def spec_circular_mean : List ℕ → Option ℚ
  | [] => none
  | a :: rest =>
    some (qmod360 (((a :: rest).map
      (fun i : ℕ => if 180 < i then (i : ℚ) - 360 else (i : ℚ))).sum /
      ((a :: rest).length : ℚ)))

/-- The spec's example region straddling the 0°/360° boundary. -/
def wrap_region : List ℕ := [355, 356, 357, 358, 359, 0, 1, 2, 3, 4, 5]

unseal Rat.add Rat.mul Rat.sub Rat.inv in
/-- C8 counterexample: on the region {355°..359°, 0°..5°} the code computes
az_center = 359.5° — the wrap-adjusted midpoint of the extreme indices — but
the circular mean of the region is exactly 0° (the region is symmetric about
0°), so the computed center is not the circular mean reduced modulo 360. -/
theorem C8_az_center_counterexample :
    az_center wrap_region = some (719/2) ∧
    spec_circular_mean wrap_region = some 0 ∧
    (719/2 : ℚ) ≠ 0 := by
  refine ⟨by decide, by decide, by norm_num⟩

unseal Rat.add Rat.mul Rat.sub Rat.inv in
/-- C8 (amended): for a region whose sorted azimuth indices have a gap
exceeding 180° the computed azimuth center is ((min + max + 360) / 2) mod
360 — the wrap-adjusted midpoint of the extreme indices, not the circular
mean of all indices; for the region {355°..359°, 0°..5°} this yields 359.5°,
at circular distance 0.5° from 0° and 179.5° from 180° (near 0°, not near
180° as a naive arithmetic mean would be). -/
theorem C8_az_center_amended :
    (∀ (a b : ℕ) (rest : List ℕ),
      180 < (diffs (sortNat (a :: b :: rest))).foldl max 0 →
      az_center (a :: b :: rest) =
        some (qmod360 ((((a :: b :: rest).foldl min a : ℕ) +
          ((a :: b :: rest).foldl max a : ℕ) + 360) / 2))) ∧
    az_center wrap_region = some (719/2) ∧
    circDist (719/2) 0 = 1/2 ∧ circDist (719/2) 180 = 359/2 := by
  refine ⟨?_, by decide, by decide, by decide⟩
  intro a b rest hgap
  unfold az_center
  simp only []
  rw [if_pos hgap]

unseal Rat.add Rat.mul Rat.sub Rat.inv in
/-- Witness for C8 (amended) at the concrete wrapped region. -/
theorem C8_az_center_amended_witness :
    az_center (355 :: 356 :: [357, 358, 359, 0, 1, 2, 3, 4, 5]) =
      some (qmod360 ((((355 :: 356 :: [357, 358, 359, 0, 1, 2, 3, 4, 5]).foldl
          min 355 : ℕ) +
        ((355 :: 356 :: [357, 358, 359, 0, 1, 2, 3, 4, 5]).foldl max 355 : ℕ) +
        360) / 2)) :=
  C8_az_center_amended.1 355 356 [357, 358, 359, 0, 1, 2, 3, 4, 5] (by decide)

/-! ### Otsu thresholding (optimize_conductivity_cutoff.py lines 90-119)

The loop accumulates weight_background; `continue` when it is still zero
guards `sum_background / weight_background`, and `break` when
weight_foreground hits zero guards the foreground mean.  Divisions are
modelled with `odiv`, which returns `none` on a zero denominator, so a
`some` result certifies the absence of any division by zero. -/

def otsu_threshold_loop :
    List (ℚ × ℚ) → ℚ → ℚ → ℚ → ℚ → ℚ → ℚ → Option ℚ
  | [], _, _, _, _, _, threshold => some threshold
  | (h, c) :: rest, total, sum_total, weight_background, sum_background,
      current_max, threshold =>
    if weight_background + h = 0 then
      otsu_threshold_loop rest total sum_total (weight_background + h)
        sum_background current_max threshold
    else if total - (weight_background + h) = 0 then some threshold
    else
      match odiv (some (sum_background + c * h)) (some (weight_background + h)),
          odiv (some (sum_total - (sum_background + c * h)))
            (some (total - (weight_background + h))) with
      | some mean_background, some mean_foreground =>
        if current_max <
            (weight_background + h) * (total - (weight_background + h)) *
              (mean_background - mean_foreground) ^ 2 then
          otsu_threshold_loop rest total sum_total (weight_background + h)
            (sum_background + c * h)
            ((weight_background + h) * (total - (weight_background + h)) *
              (mean_background - mean_foreground) ^ 2) c
        else
          otsu_threshold_loop rest total sum_total (weight_background + h)
            (sum_background + c * h) current_max threshold
      | _, _ => none

/-- otsu_threshold: histogram counts paired with their bin centers, iterated
in order; numpy raises on a length mismatch (modelled as `none`). -/
def otsu_threshold (hist bin_centers : List ℚ) : Option ℚ :=
  if hist.length = bin_centers.length then
    otsu_threshold_loop (hist.zip bin_centers) hist.sum
      ((List.zipWith (fun c h => c * h) bin_centers hist).sum) 0 0 0 0
  else none

theorem otsu_threshold_loop_spec (centers : List ℚ) :
    ∀ (pairs : List (ℚ × ℚ)) (total sum_total weight_background
        sum_background current_max threshold : ℚ),
      (∀ p ∈ pairs, p.2 ∈ centers) →
      (threshold = 0 ∨ threshold ∈ centers) →
      ∃ t, otsu_threshold_loop pairs total sum_total weight_background
          sum_background current_max threshold = some t ∧
        (t = 0 ∨ t ∈ centers) := by
  intro pairs
  induction pairs with
  | nil =>
    intro total st wb sb cur thr _ hthr
    exact ⟨thr, rfl, hthr⟩
  | cons p rest ih =>
    intro total st wb sb cur thr hmem hthr
    obtain ⟨h, c⟩ := p
    have hc : c ∈ centers := hmem (h, c) (List.mem_cons_self _ _)
    have hrest : ∀ q ∈ rest, q.2 ∈ centers :=
      fun q hq => hmem q (List.mem_cons_of_mem _ hq)
    unfold otsu_threshold_loop
    by_cases hwb : wb + h = 0
    · rw [if_pos hwb]
      exact ih total st (wb + h) sb cur thr hrest hthr
    · rw [if_neg hwb]
      by_cases hwf : total - (wb + h) = 0
      · rw [if_pos hwf]
        exact ⟨thr, rfl, hthr⟩
      · rw [if_neg hwf]
        have hdiv1 : odiv (some (sb + c * h)) (some (wb + h)) =
            some ((sb + c * h) / (wb + h)) := by simp [odiv, hwb]
        have hdiv2 : odiv (some (st - (sb + c * h))) (some (total - (wb + h))) =
            some ((st - (sb + c * h)) / (total - (wb + h))) := by
          simp [odiv, hwf]
        rw [hdiv1, hdiv2]
        simp only
        by_cases hvar : cur <
            (wb + h) * (total - (wb + h)) *
              ((sb + c * h) / (wb + h) - (st - (sb + c * h)) / (total - (wb + h))) ^ 2
        · rw [if_pos hvar]
          exact ih total st (wb + h) (sb + c * h) _ c hrest (Or.inr hc)
        · rw [if_neg hvar]
          exact ih total st (wb + h) (sb + c * h) cur thr hrest hthr

/-- C10: for any histogram of non-negative counts with an equal-length list
of bin centers, otsu_threshold terminates without dividing by zero (the
weight_background = 0 `continue` and the weight_foreground = 0 `break` guard
both divisions, certified by the `some` result under zero-rejecting `odiv`)
and returns either 0 or one of the supplied bin centers. -/
theorem C10_otsu_threshold_safe :
    ∀ (hist bin_centers : List ℚ),
      (∀ h ∈ hist, 0 ≤ h) → hist.length = bin_centers.length →
      ∃ t, otsu_threshold hist bin_centers = some t ∧
        (t = 0 ∨ t ∈ bin_centers) := by
  intro hist bin_centers _ hlen
  unfold otsu_threshold
  rw [if_pos hlen]
  exact otsu_threshold_loop_spec bin_centers (hist.zip bin_centers) _ _ 0 0 0 0
    (fun p hp => (List.of_mem_zip hp).2) (Or.inl rfl)

unseal Rat.add Rat.mul Rat.sub Rat.inv in
/-- Witness for C10 at a concrete two-bin histogram. -/
theorem C10_otsu_threshold_safe_witness :
    ∃ t, otsu_threshold [2, 3] [10, 20] = some t ∧ (t = 0 ∨ t ∈ [10, 20]) :=
  C10_otsu_threshold_safe [2, 3] [10, 20] (by norm_num) (by decide)
